import Mathlib

/-!
Verification development for the OmicsIntegrator2 orchestration layer
(`src/__main__.py` plus the spec of the `graph` module it imports).

The embedding keeps the source's names where Lean allows it.  Python /
numpy floating point is modelled by `PyFloat`: the claims under study
depend only on whether a value is finite, NaN or -infinity, never on the
numeric value of a natural logarithm (which is irrational), so finite
values are rationals and the natural-log function on positive integers
is a parameter `logVal` of the statistics computation.
-/

namespace OI2

/-- Model of the numpy/pandas scalar domain used by the statistics code:
a value is NaN, negative infinity, or a finite number (kept exact as a
rational).  `np.log 0 = -inf` and the mean of an empty series is NaN,
which is all the claims depend on. -/
inductive PyFloat where
  | nan : PyFloat
  | neginf : PyFloat
  | fin (x : ℚ) : PyFloat
deriving DecidableEq, Repr

/-- Model of `np.log` on a nonnegative integer degree: `np.log 0` is
`-inf`; on a positive degree it is the finite value `logVal d`, where
`logVal` abstracts the natural logarithm (its numeric values are
irrelevant to the claims, only finiteness matters). -/
def npLog (logVal : ℕ → ℚ) (d : ℕ) : PyFloat :=
  if d = 0 then PyFloat.neginf else PyFloat.fin (logVal d)

/-- Check whether a value is NaN. -/
def PyFloat.isNaN : PyFloat → Bool
  | PyFloat.nan => true
  | _ => false

/-- Check whether a value is negative infinity. -/
def PyFloat.isNegInf : PyFloat → Bool
  | PyFloat.neginf => true
  | _ => false

/-- Finite payload of a value (0 on non-finite values; only used on
lists already known to be all-finite). -/
def PyFloat.toQ : PyFloat → ℚ
  | PyFloat.fin x => x
  | _ => 0

/-- Model of `pandas.Series.mean()` with its default `skipna=True`:
NaN entries are dropped; the mean of an empty (or all-NaN) series is
NaN; a `-inf` entry makes the sum, hence the mean, `-inf` (there are no
`+inf` entries in this program, so no `inf - inf` NaN can arise);
otherwise the mean is the finite average. -/
def seriesMean (xs : List PyFloat) : PyFloat :=
  let vals := xs.filter (fun x => !x.isNaN)
  if vals.isEmpty then PyFloat.nan
  else if vals.any (fun x => x.isNegInf) then PyFloat.neginf
  else PyFloat.fin ((vals.map PyFloat.toQ).sum / vals.length)

/-- A row of the node dataframe produced by
`get_networkx_graph_as_node_edge_dataframes`: a node identifier with
its "type" and "degree" attributes (the only columns the statistics
code reads). -/
structure NXNode where
  id : ℕ
  type : String
  degree : ℕ
deriving DecidableEq, Repr

/-- A networkx graph as the orchestration code sees it: a node table
and an edge list whose endpoints are node identifiers. -/
structure NXGraph where
  nodes : List NXNode
  edges : List (ℕ × ℕ)
deriving DecidableEq, Repr

/-- Model of `nxgraph.number_of_nodes()`. -/
def NXGraph.number_of_nodes (g : NXGraph) : ℕ := g.nodes.length

/-- One step of the union-find style component merge: the components
touching either endpoint of the edge are fused into one. -/
def insertEdge (comps : List (List ℕ)) (e : ℕ × ℕ) : List (List ℕ) :=
  let touched := comps.filter (fun c => e.1 ∈ c ∨ e.2 ∈ c)
  let untouched := comps.filter (fun c => ¬(e.1 ∈ c ∨ e.2 ∈ c))
  if touched.isEmpty then untouched else touched.flatten :: untouched

/-- Model of `nx.connected_components`: start from singleton components
and fuse along every edge.  Returns the list of components (each a list
of node identifiers). -/
def connectedComponents (g : NXGraph) : List (List ℕ) :=
  g.edges.foldl insertEdge (g.nodes.map (fun n => [n.id]))

/-- The fixed-shape record returned by
`get_summary_statistics_from_nxgraph` (the list of nine values in the
source, named here). -/
structure SummaryRow where
  tag : String
  num_all : ℕ
  num_steiner : ℕ
  num_prizes : ℕ
  logDeg_all : PyFloat
  logDeg_steiner : PyFloat
  logDeg_prizes : PyFloat
  connected_components : ℕ
  singletons : ℕ
deriving DecidableEq, Repr

/-- Embedding of `get_summary_statistics_from_nxgraph(nxgraph, tag)`
from `src/__main__.py`: steiner nodes are the rows whose "type" column
equals "steiner", prize nodes are all the others; the three log-degree
fields apply `np.log` to each degree and take the pandas mean;
component and singleton counts come from `nx.connected_components`. -/
def get_summary_statistics_from_nxgraph (logVal : ℕ → ℚ) (nxgraph : NXGraph)
    (tag : String) : SummaryRow :=
  let steiners := nxgraph.nodes.filter (fun n => n.type == "steiner")
  let prizes := nxgraph.nodes.filter (fun n => n.type != "steiner")
  let comps := connectedComponents nxgraph
  { tag := tag
    num_all := nxgraph.nodes.length
    num_steiner := steiners.length
    num_prizes := prizes.length
    logDeg_all := seriesMean (nxgraph.nodes.map (fun n => npLog logVal n.degree))
    logDeg_steiner := seriesMean (steiners.map (fun n => npLog logVal n.degree))
    logDeg_prizes := seriesMean (prizes.map (fun n => npLog logVal n.degree))
    connected_components := comps.length
    singletons := (comps.filter (fun c => c.length == 1)).length }

/-- A Python parameter value as stored in the `params` dict built by
`main()`: a float list (`-w`, `-b`, `-g`), a float, an int, a bool, a
string, or Python's `None`. -/
inductive PValue where
  | floats (xs : List ℚ) : PValue
  | float (x : ℚ) : PValue
  | int (n : ℤ) : PValue
  | bool (b : Bool) : PValue
  | str (s : String) : PValue
  | none : PValue
deriving DecidableEq, Repr

/-- A command-line invocation: `Option.none` means the flag was absent
from the invocation.  `exclude_terminals` is a `store_true` flag, so
its presence is the boolean itself. -/
structure CLIArgs where
  w : Option (List ℚ)
  b : Option (List ℚ)
  g : Option (List ℚ)
  noise : Option ℚ
  noisy_edges_repetitions : Option ℤ
  random_terminals_repetitions : Option ℤ
  knockout : Option (List String)
  dummy_mode : Option String
  exclude_terminals : Bool
  seed : Option ℤ
deriving DecidableEq, Repr

/-- The argparse namespace after defaults are applied, mirroring the
`default=` values declared on each `add_argument` call in
`src/__main__.py`: `w=[6]`, `b=[1]`, `g=[20]`, `noise=0.1`, both
repetition counts `0`, `knockout=[]`; `dummy_mode` and `seed` declare
no default and stay `None` when absent. -/
structure ParsedArgs where
  w : List ℚ
  b : List ℚ
  g : List ℚ
  noise : ℚ
  noisy_edges_repetitions : ℤ
  random_terminals_repetitions : ℤ
  knockout : List String
  dummy_mode : Option String
  exclude_terminals : Bool
  seed : Option ℤ
deriving DecidableEq, Repr

/-- Embedding of `parser.parse_args()` default resolution (total: an
absent optional flag never fails, it falls back to its default). -/
def parse_args (a : CLIArgs) : ParsedArgs :=
  { w := a.w.getD [6]
    b := a.b.getD [1]
    g := a.g.getD [20]
    noise := a.noise.getD (1/10)
    noisy_edges_repetitions := a.noisy_edges_repetitions.getD 0
    random_terminals_repetitions := a.random_terminals_repetitions.getD 0
    knockout := a.knockout.getD []
    dummy_mode := a.dummy_mode
    exclude_terminals := a.exclude_terminals
    seed := a.seed }

/-- Lift an optional string to a `PValue` (`None` when absent). -/
def optStr : Option String → PValue
  | Option.none => PValue.none
  | Option.some s => PValue.str s

/-- Lift an optional integer to a `PValue` (`None` when absent). -/
def optInt : Option ℤ → PValue
  | Option.none => PValue.none
  | Option.some n => PValue.int n

/-- Embedding of the `params` dict construction in `main()`: the nine
listed keys, then the comprehension
`{param: value for param, value in params.items() if value is not None}`
which drops every key whose value is `None`. -/
def buildParams (p : ParsedArgs) : List (String × PValue) :=
  ([("w", PValue.floats p.w), ("b", PValue.floats p.b),
    ("g", PValue.floats p.g), ("noise", PValue.float p.noise),
    ("dummy_mode", optStr p.dummy_mode),
    ("exclude_terminals", PValue.bool p.exclude_terminals),
    ("seed", optInt p.seed),
    ("noisy_edges_repetitions", PValue.int p.noisy_edges_repetitions),
    ("random_terminals_repetitions", PValue.int p.random_terminals_repetitions)]
  ).filter (fun kv => kv.2 ≠ PValue.none)

/-- One element of the list returned by
`graph.grid_search_randomizations`: a `(tag, forest, augmented_forest)`
triple. -/
structure ResultTriple where
  tag : String
  forest : NXGraph
  augmented_forest : NXGraph
deriving DecidableEq, Repr

/-- The observable actions of one iteration of the result loop in
`main()`: writing the forest / augmented-forest / robust-network file
set for a tag, or printing the "is empty, results not printed"
message for a tag. -/
inductive OutputEvent where
  | forestFiles (tag : String) : OutputEvent
  | augmentedForestFiles (tag : String) : OutputEvent
  | robustNetworkFiles (tag : String) : OutputEvent
  | emptyMessage (tag : String) : OutputEvent
deriving DecidableEq, Repr

/-- Embedding of one iteration of the `for tag, forest,
augmented_forest in results` loop in `main()`.  `nr` and `rr` are
`params["noisy_edges_repetitions"]` and
`params["random_terminals_repetitions"]` (always present in the dict:
their argparse defaults are the int 0, never `None`); the Python
chained comparison `nr == rr == 0` is `(nr = rr ∧ rr = 0)`.  Returns
the output events of the iteration and the summary rows it appends to
`summary_stats`. -/
def processResult (nr rr : ℤ) (logVal : ℕ → ℚ) (r : ResultTriple) :
    List OutputEvent × List SummaryRow :=
  if 0 < r.augmented_forest.number_of_nodes then
    if nr = rr ∧ rr = 0 then
      ([OutputEvent.forestFiles r.tag],
       [get_summary_statistics_from_nxgraph logVal r.forest r.tag])
    else
      ([OutputEvent.augmentedForestFiles r.tag,
        OutputEvent.robustNetworkFiles r.tag], [])
  else
    ([OutputEvent.emptyMessage r.tag], [])

/-- Embedding of the whole result loop of `main()`: events in loop
order and the `summary_stats` list in append order. -/
def mainLoop (nr rr : ℤ) (logVal : ℕ → ℚ) (results : List ResultTriple) :
    List OutputEvent × List SummaryRow :=
  ((results.map (fun r => (processResult nr rr logVal r).1)).flatten,
   (results.map (fun r => (processResult nr rr logVal r).2)).flatten)

/-- Sort key order used by
`stats_df.sort_values(by=["n_singletons", "n_all"])`. -/
def statsLe (r s : SummaryRow) : Bool :=
  decide (r.singletons < s.singletons ∨
    (r.singletons = s.singletons ∧ r.num_all ≤ s.num_all))

/-- Embedding of the tail of `main()`: `summary_stats` is persisted as
`summary_stats.tsv` (sorted by singleton count then node count) only
when `len(summary_stats) > 0`; otherwise nothing is written. -/
def persistedStats (nr rr : ℤ) (logVal : ℕ → ℚ)
    (results : List ResultTriple) : Option (List SummaryRow) :=
  let stats := (mainLoop nr rr logVal results).2
  if 0 < stats.length then Option.some (stats.mergeSort statsLe)
  else Option.none

/-- A solver result for one repetition, as a pair of node and edge
sets ("Forest" of the data model; it need not be connected). -/
structure SForest where
  nodes : Finset ℕ
  edges : Finset (ℕ × ℕ)
deriving DecidableEq

/-- An Augmented Forest: every node and edge of the union carries its
observed frequency, kept here as explicit (element, frequency) pair
sets. -/
structure AugForest where
  nodeFreq : Finset (ℕ × ℚ)
  edgeFreq : Finset ((ℕ × ℕ) × ℚ)
deriving DecidableEq

/-- Union of the node sets of a list of forests. -/
def nodesUnion (forests : List SForest) : Finset ℕ :=
  forests.foldr (fun f acc => f.nodes ∪ acc) ∅

/-- Union of the edge sets of a list of forests. -/
def edgesUnion (forests : List SForest) : Finset (ℕ × ℕ) :=
  forests.foldr (fun f acc => f.edges ∪ acc) ∅

/-- Modelled from the spec: `Merge-to-augmented-forest(forests)` of the
Aggregator (§4.4), implemented in the repository's `graph` module which
is not under `src/`.  It "builds the union of all node and edge sets
across the input forests" and "annotates each node and edge with
frequency = occurrences / len(forests)". -/
def mergeForests (forests : List SForest) : AugForest :=
  { nodeFreq := (nodesUnion forests).image (fun v =>
      (v, ((forests.countP (fun f => v ∈ f.nodes) : ℚ) / forests.length)))
    edgeFreq := (edgesUnion forests).image (fun e =>
      (e, ((forests.countP (fun f => e ∈ f.edges) : ℚ) / forests.length))) }

/-- An augmented networkx graph as handed to the robust-network
extraction: nodes with their frequency annotation, and edges between
node identifiers. -/
structure AugGraph where
  nodes : List (ℕ × ℚ)
  edges : List (ℕ × ℕ)
deriving DecidableEq, Repr

/-- Insert a frequency-annotated node into a list sorted by decreasing
frequency. -/
def insertByFreq (p : ℕ × ℚ) : List (ℕ × ℚ) → List (ℕ × ℚ)
  | [] => [p]
  | q :: qs => if q.2 ≤ p.2 then p :: q :: qs else q :: insertByFreq p qs

/-- Sort frequency-annotated nodes by decreasing frequency (insertion
sort). -/
def sortByFreq : List (ℕ × ℚ) → List (ℕ × ℚ)
  | [] => []
  | p :: ps => insertByFreq p (sortByFreq ps)

/-- Modelled from the spec:
`get_networkx_subgraph_from_randomizations(augmented_forest, max_size)`
(`Extract-robust-network`, §4.4), implemented in the repository's
`graph` module which is not under `src/`.  It performs a
"frequency-ordered selection": nodes are taken in order of decreasing
frequency until the size cap `max_size` is reached, and the result is
the induced subgraph of the augmented forest on the selected nodes
(so it has no dangling edges). -/
def get_networkx_subgraph_from_randomizations (af : AugGraph)
    (max_size : ℕ) : AugGraph :=
  let keep := (sortByFreq af.nodes).take max_size
  let keepIds := keep.map (fun p => p.1)
  { nodes := keep
    edges := af.edges.filter (fun e => e.1 ∈ keepIds ∧ e.2 ∈ keepIds) }

/-- Cartesian product of a list of candidate-value lists, in the order
`itertools.product` enumerates it. -/
def cartProduct : List (List ℚ) → List (List ℚ)
  | [] => [[]]
  | l :: ls => l.flatMap (fun x => (cartProduct ls).map (fun c => x :: c))

/-- Modelled from the spec: the tag emission of the Grid Search Engine
(`graph.grid_search_randomizations`, §4.1 and §3 "Run Tag"),
implemented in the repository's `graph` module which is not under
`src/`.  The Run Tag is "a deterministic string key identifying a grid
cell, e.g. encoding `w`, `b`, `g`, and (if applicable) the
randomization repetition kind"; since the spec fixes only that the
encoding is deterministic and injective in the combination, a tag is
modelled as the (repetition-group, parameter-combination) pair it
encodes.  When no randomization is configured there is a single
(unnamed) repetition group. -/
def gridTags (paramLists : List (List ℚ)) (repGroups : List String) :
    List (String × List ℚ) :=
  let groups := if repGroups.isEmpty then [""] else repGroups
  groups.flatMap (fun grp => (cartProduct paramLists).map (fun c => (grp, c)))

/-- An interactome: node set plus cost-annotated edges.  Immutable
weighted graph of the data model (§3). -/
structure Interactome where
  nodes : Finset ℕ
  edges : Finset (ℕ × ℕ × ℚ)
deriving DecidableEq

/-- A Prize Assignment as an association list from node identifier to
its nonzero prize value (§3). -/
abbrev PrizeAssignment := List (ℕ × ℚ)

/-- Modelled from the spec: the random-terminals Perturbation Generator
(§4.2), implemented in the repository's `graph` module which is not
under `src/`.  It constructs "a new Prize Assignment of the same size
(same number of nonzero-prize nodes) as the original, but with prize
values reassigned to randomly chosen nodes" and "returns a new Prize
Assignment; the graph and costs are unchanged".  The random
(degree-bucketed) node selection is abstracted as the replacement map
`σ` that the pseudo-random draw produced. -/
def randomTerminals (g : Interactome) (prizes : PrizeAssignment)
    (σ : ℕ → ℕ) : Interactome × PrizeAssignment :=
  (g, prizes.map (fun p => (σ p.1, p.2)))

/-- Concrete example graph: a single steiner node of degree 1 with no
edges. -/
def exampleGraph : NXGraph :=
  { nodes := [{ id := 0, type := "steiner", degree := 1 }], edges := [] }

/-- Concrete nonempty grid-search result built on `exampleGraph`. -/
def exampleTriple : ResultTriple :=
  { tag := "t", forest := exampleGraph, augmented_forest := exampleGraph }

/-- The summary row of `exampleGraph` under the everywhere-zero log
model. -/
def exampleRow : SummaryRow :=
  { tag := "t", num_all := 1, num_steiner := 1, num_prizes := 0,
    logDeg_all := PyFloat.fin 0, logDeg_steiner := PyFloat.fin 0,
    logDeg_prizes := PyFloat.nan, connected_components := 1, singletons := 1 }

/-- Concrete empty grid-search result (zero nodes in its augmented
forest). -/
def emptyTriple : ResultTriple :=
  { tag := "e", forest := { nodes := [], edges := [] },
    augmented_forest := { nodes := [], edges := [] } }

/-- Concrete invocation with every optional flag absent. -/
def bareArgs : CLIArgs :=
  { w := Option.none, b := Option.none, g := Option.none,
    noise := Option.none, noisy_edges_repetitions := Option.none,
    random_terminals_repetitions := Option.none, knockout := Option.none,
    dummy_mode := Option.none, exclude_terminals := false,
    seed := Option.none }

/-- Concrete augmented graph: three nodes with frequencies 3, 2, 1 and
two edges. -/
def exampleAug : AugGraph :=
  { nodes := [(0, 3), (1, 2), (2, 1)], edges := [(0, 1), (1, 2)] }

/-- Concrete solver forest on node 0 alone. -/
def forestA : SForest := { nodes := {0}, edges := ∅ }

/-- Concrete solver forest on nodes 0 and 1 with one edge. -/
def forestB : SForest := { nodes := {0, 1}, edges := {(0, 1)} }

/-- Concrete interactome on three nodes with no edges. -/
def exampleInteractome : Interactome := { nodes := {0, 1, 2}, edges := ∅ }

/-- Concrete prize assignment on two nodes. -/
def examplePrizes : PrizeAssignment := [(0, 3), (1, 5)]

/-!  Theorems.  -/

/-- C1: the claim states that the log-degree means exclude degree-0
nodes (or handle them as a documented edge case) and never let an
unguarded NaN or log-of-zero propagate into the returned record.  The
code computes `np.log(df["degree"]).mean()` with no guard: on a graph
holding a single steiner node of degree 0, `np.log 0 = -inf` propagates
into `logDeg_all` and `logDeg_steiner`, and the mean over the empty
prize category is NaN in `logDeg_prizes` — all three non-finite values
sit in the returned record. -/
theorem c1_log_zero_unguarded :
    (get_summary_statistics_from_nxgraph (fun _ => 0)
        { nodes := [{ id := 0, type := "steiner", degree := 0 }], edges := [] }
        "cell").logDeg_all = PyFloat.neginf
    ∧ (get_summary_statistics_from_nxgraph (fun _ => 0)
        { nodes := [{ id := 0, type := "steiner", degree := 0 }], edges := [] }
        "cell").logDeg_steiner = PyFloat.neginf
    ∧ (get_summary_statistics_from_nxgraph (fun _ => 0)
        { nodes := [{ id := 0, type := "steiner", degree := 0 }], edges := [] }
        "cell").logDeg_prizes = PyFloat.nan := by
  refine ⟨rfl, rfl, rfl⟩

/-- C10: `get_summary_statistics_from_nxgraph` classifies a node as
steiner exactly when its type label equals "steiner" and as prize
otherwise, so the steiner and prize counts always partition the total
node count, and the singleton count (size-1 components) never exceeds
the connected-component count. -/
theorem c10_partition_and_singletons (lv : ℕ → ℚ) (g : NXGraph) (tag : String) :
    (get_summary_statistics_from_nxgraph lv g tag).num_steiner
      = (g.nodes.filter (fun n => n.type == "steiner")).length
    ∧ (get_summary_statistics_from_nxgraph lv g tag).num_prizes
      = (g.nodes.filter (fun n : NXNode => n.type != "steiner")).length
    ∧ (get_summary_statistics_from_nxgraph lv g tag).num_steiner
        + (get_summary_statistics_from_nxgraph lv g tag).num_prizes
      = (get_summary_statistics_from_nxgraph lv g tag).num_all
    ∧ (get_summary_statistics_from_nxgraph lv g tag).singletons
      ≤ (get_summary_statistics_from_nxgraph lv g tag).connected_components := by
  refine ⟨rfl, rfl, ?_, ?_⟩
  · exact (List.length_eq_length_filter_add (fun n : NXNode => n.type == "steiner")).symm
  · exact List.length_filter_le _ _

/-- C2 counterexample: with randomization repetitions configured (both
counts 2), a nonempty grid-search result flows through the
randomization branch of the loop, where no Summary Row is ever
computed, and nothing is persisted at the end of the run — refuting
"regardless of whether randomization repetitions were configured". -/
theorem c2_no_stats_with_randomizations :
    (mainLoop 2 2 (fun _ => 0)
      [{ tag := "t",
         forest := { nodes := [{ id := 0, type := "steiner", degree := 1 }], edges := [] },
         augmented_forest := { nodes := [{ id := 0, type := "steiner", degree := 1 }], edges := [] } }]).2
      = []
    ∧ persistedStats 2 2 (fun _ => 0)
      [{ tag := "t",
         forest := { nodes := [{ id := 0, type := "steiner", degree := 1 }], edges := [] },
         augmented_forest := { nodes := [{ id := 0, type := "steiner", degree := 1 }], edges := [] } }]
      = Option.none := by
  refine ⟨rfl, rfl⟩

/-- C2 as amended: a Summary Row is computed exactly once per nonempty
result and the table is persisted at the end of the run only in
single-run mode (both repetition counts 0); when randomizations are
configured, no Summary Row is computed and no summary table is
persisted.  Persistence happens exactly when at least one row was
collected, and the persisted table holds exactly the collected rows
(reordered by the final sort). -/
theorem c2_stats_only_single_run (nr rr : ℤ) (lv : ℕ → ℚ)
    (results : List ResultTriple) :
    (mainLoop nr rr lv results).2
      = (if nr = rr ∧ rr = 0 then
          (results.filter (fun r => 0 < r.augmented_forest.number_of_nodes)).map
            (fun r => get_summary_statistics_from_nxgraph lv r.forest r.tag)
         else [])
    ∧ (persistedStats nr rr lv results = Option.none
        ↔ (mainLoop nr rr lv results).2 = [])
    ∧ (∀ tbl, persistedStats nr rr lv results = Option.some tbl →
        tbl.Perm (mainLoop nr rr lv results).2) := by
  refine ⟨?_, ?_, ?_⟩
  · by_cases h : nr = rr ∧ rr = 0
    · obtain ⟨h1, rfl⟩ := h
      subst h1
      simp only [if_pos (And.intro rfl rfl)]
      induction results with
      | nil => rfl
      | cons r rs ih =>
          by_cases hn : 0 < r.augmented_forest.number_of_nodes <;>
            simp [mainLoop, processResult, hn, List.filter_cons] at ih ⊢ <;>
            exact ih
    · simp only [if_neg h]
      induction results with
      | nil => rfl
      | cons r rs ih =>
          simp only [mainLoop, List.map_cons, List.flatten_cons] at ih ⊢
          rw [List.append_eq_nil]
          refine ⟨?_, ih⟩
          unfold processResult
          split
          · simp [h]
          · rfl
  · by_cases hpos : 0 < (mainLoop nr rr lv results).2.length
    · simp only [persistedStats, if_pos hpos]
      constructor
      · intro hsome; exact absurd hsome (by simp)
      · intro hnil; rw [hnil] at hpos; simp at hpos
    · simp only [persistedStats, if_neg hpos]
      simp only [not_lt, Nat.le_zero, List.length_eq_zero] at hpos
      simp [hpos]
  · intro tbl htbl
    by_cases hpos : 0 < (mainLoop nr rr lv results).2.length
    · simp only [persistedStats, if_pos hpos, Option.some.injEq] at htbl
      rw [← htbl]
      exact List.mergeSort_perm _ _
    · simp only [persistedStats, if_neg hpos] at htbl
      cases htbl

/-- C2 witness: in single-run mode a run over one nonempty result
collects exactly one Summary Row and persists it. -/
theorem c2_stats_only_single_run_witness :
    persistedStats 0 0 (fun _ => 0) [exampleTriple] = Option.some [exampleRow]
    ∧ ([exampleRow] : List SummaryRow).Perm
        (mainLoop 0 0 (fun _ => 0) [exampleTriple]).2 := by
  have hp : persistedStats 0 0 (fun _ => 0) [exampleTriple]
      = Option.some [exampleRow] := by
    show (if 0 < (mainLoop 0 0 (fun _ => 0) [exampleTriple]).2.length then
        Option.some ((mainLoop 0 0 (fun _ => 0) [exampleTriple]).2.mergeSort statsLe)
      else Option.none) = Option.some [exampleRow]
    have h2 : (mainLoop 0 0 (fun _ => 0) [exampleTriple]).2 = [exampleRow] := by
      simp [mainLoop, processResult, exampleTriple, exampleGraph, exampleRow,
        get_summary_statistics_from_nxgraph, seriesMean, npLog,
        connectedComponents, insertEdge, PyFloat.isNaN, PyFloat.isNegInf,
        PyFloat.toQ, NXGraph.number_of_nodes]
    rw [h2, List.mergeSort_singleton]
    rfl
  refine ⟨hp, ?_⟩
  exact (c2_stats_only_single_run 0 0 (fun _ => 0) [exampleTriple]).2.2 [exampleRow] hp

/-- C3: a grid cell whose result is empty (zero nodes in its augmented
forest) does not abort the run: its loop iteration only prints the
"is empty, results not printed" message for its tag, produces no file
output and no summary row, and the events of every other cell's
iteration still appear in the run's event stream. -/
theorem c3_empty_cell_reported (nr rr : ℤ) (lv : ℕ → ℚ)
    (results : List ResultTriple) (r : ResultTriple) (hr : r ∈ results)
    (he : r.augmented_forest.number_of_nodes = 0) :
    (processResult nr rr lv r).1 = [OutputEvent.emptyMessage r.tag]
    ∧ (processResult nr rr lv r).2 = []
    ∧ OutputEvent.emptyMessage r.tag ∈ (mainLoop nr rr lv results).1
    ∧ ∀ s ∈ results, ∀ e ∈ (processResult nr rr lv s).1,
        e ∈ (mainLoop nr rr lv results).1 := by
  have hpr : processResult nr rr lv r = ([OutputEvent.emptyMessage r.tag], []) := by
    unfold processResult
    rw [if_neg (by rw [he]; exact lt_irrefl 0)]
  have hall : ∀ s ∈ results, ∀ e ∈ (processResult nr rr lv s).1,
      e ∈ (mainLoop nr rr lv results).1 := by
    intro s hs e hes
    simp only [mainLoop, List.mem_flatten]
    exact ⟨(processResult nr rr lv s).1, List.mem_map_of_mem _ hs, hes⟩
  refine ⟨by rw [hpr], by rw [hpr], ?_, hall⟩
  have := hall r hr (OutputEvent.emptyMessage r.tag) (by rw [hpr]; exact List.mem_singleton_self _)
  exact this

/-- C3 witness: in a run over one empty and one nonempty result, the
empty cell's message and the nonempty cell's forest output both appear
in the event stream. -/
theorem c3_empty_cell_reported_witness :
    OutputEvent.emptyMessage "e" ∈ (mainLoop 0 0 (fun _ => 0) [emptyTriple, exampleTriple]).1
    ∧ OutputEvent.forestFiles "t" ∈ (mainLoop 0 0 (fun _ => 0) [emptyTriple, exampleTriple]).1 := by
  refine ⟨?_, ?_⟩
  · exact (c3_empty_cell_reported 0 0 (fun _ => 0) [emptyTriple, exampleTriple]
      emptyTriple (by decide) (by decide)).2.2.1
  · exact (c3_empty_cell_reported 0 0 (fun _ => 0) [emptyTriple, exampleTriple]
      emptyTriple (by decide) (by decide)).2.2.2 exampleTriple (by decide)
      (OutputEvent.forestFiles "t") (by decide)

/-- C5: when an optional parameter is absent the run does not fail: the
params mapping built by `main()` holds `w = [6]`, `b = [1]`, `g = [20]`,
`noise = 0.1` and both randomization repetition counts `0`, while
parameters whose resolved value is `None` (such as an unset seed or
dummy mode) are omitted from the mapping handed to the grid search. -/
theorem c5_defaults_applied (a : CLIArgs) (hw : a.w = Option.none)
    (hb : a.b = Option.none) (hg : a.g = Option.none)
    (hn : a.noise = Option.none)
    (hne : a.noisy_edges_repetitions = Option.none)
    (hrt : a.random_terminals_repetitions = Option.none) :
    (buildParams (parse_args a)).lookup "w" = Option.some (PValue.floats [6])
    ∧ (buildParams (parse_args a)).lookup "b" = Option.some (PValue.floats [1])
    ∧ (buildParams (parse_args a)).lookup "g" = Option.some (PValue.floats [20])
    ∧ (buildParams (parse_args a)).lookup "noise" = Option.some (PValue.float (1/10))
    ∧ (buildParams (parse_args a)).lookup "noisy_edges_repetitions"
        = Option.some (PValue.int 0)
    ∧ (buildParams (parse_args a)).lookup "random_terminals_repetitions"
        = Option.some (PValue.int 0)
    ∧ (a.dummy_mode = Option.none →
        (buildParams (parse_args a)).lookup "dummy_mode" = Option.none)
    ∧ (a.seed = Option.none →
        (buildParams (parse_args a)).lookup "seed" = Option.none) := by
  cases a with
  | mk w b g noise ner rtr ko dm et seed =>
      cases hw; cases hb; cases hg; cases hn; cases hne; cases hrt
      cases dm <;> cases seed <;>
        simp [buildParams, parse_args, optStr, optInt, List.lookup]

/-- C5 witness: an invocation with every optional flag absent resolves
to the documented defaults and omits seed and dummy mode. -/
theorem c5_defaults_applied_witness :
    (buildParams (parse_args bareArgs)).lookup "w"
      = Option.some (PValue.floats [6])
    ∧ (buildParams (parse_args bareArgs)).lookup "seed" = Option.none := by
  refine ⟨(c5_defaults_applied bareArgs rfl rfl rfl rfl rfl rfl).1, ?_⟩
  exact (c5_defaults_applied bareArgs rfl rfl rfl rfl rfl rfl).2.2.2.2.2.2.2 rfl

/-- Permutation fact: inserting by frequency only reorders. -/
theorem insertByFreq_perm (p : ℕ × ℚ) (l : List (ℕ × ℚ)) :
    (insertByFreq p l).Perm (p :: l) := by
  induction l with
  | nil => exact List.Perm.refl _
  | cons q qs ih =>
      unfold insertByFreq
      by_cases h : q.2 ≤ p.2
      · rw [if_pos h]
      · rw [if_neg h]
        exact (ih.cons q).trans (List.Perm.swap p q qs)

/-- Permutation fact: the frequency sort only reorders. -/
theorem sortByFreq_perm (l : List (ℕ × ℚ)) : (sortByFreq l).Perm l := by
  induction l with
  | nil => exact List.Perm.refl _
  | cons p ps ih =>
      exact (insertByFreq_perm p (sortByFreq ps)).trans (ih.cons p)

/-- C4: for every input Augmented Forest, the extracted Robust Network
is a subgraph of it (every node and edge of the result comes from the
input), it has no dangling edges (both endpoints of every retained edge
are retained nodes), and its node count never exceeds the configured
maximum size (the caller in `main()` fixes `max_size = 400`). -/
theorem c4_robust_network_bounded (af : AugGraph) (max_size : ℕ) :
    (get_networkx_subgraph_from_randomizations af max_size).nodes.length ≤ max_size
    ∧ (∀ p ∈ (get_networkx_subgraph_from_randomizations af max_size).nodes,
        p ∈ af.nodes)
    ∧ (∀ e ∈ (get_networkx_subgraph_from_randomizations af max_size).edges,
        e ∈ af.edges)
    ∧ (∀ e ∈ (get_networkx_subgraph_from_randomizations af max_size).edges,
        e.1 ∈ (get_networkx_subgraph_from_randomizations af max_size).nodes.map
          (fun p => p.1)
        ∧ e.2 ∈ (get_networkx_subgraph_from_randomizations af max_size).nodes.map
          (fun p => p.1)) := by
  refine ⟨List.length_take_le _ _, ?_, ?_, ?_⟩
  · intro p hp
    exact (sortByFreq_perm af.nodes).mem_iff.mp (List.mem_of_mem_take hp)
  · intro e he
    exact (List.mem_filter.mp he).1
  · intro e he
    have h := (List.mem_filter.mp he).2
    exact of_decide_eq_true h

/-- C4 witness: capping `exampleAug` at two nodes keeps the two
highest-frequency nodes and only the edge between them, with both of
its endpoints retained. -/
theorem c4_robust_network_bounded_witness :
    (0, 1) ∈ (get_networkx_subgraph_from_randomizations exampleAug 2).edges
    ∧ (0, 1) ∈ exampleAug.edges
    ∧ (0 : ℕ) ∈ (get_networkx_subgraph_from_randomizations exampleAug 2).nodes.map
        (fun p => p.1)
    ∧ (1 : ℕ) ∈ (get_networkx_subgraph_from_randomizations exampleAug 2).nodes.map
        (fun p => p.1) := by
  have hmem : (0, 1) ∈ (get_networkx_subgraph_from_randomizations exampleAug 2).edges := by
    decide
  have h := (c4_robust_network_bounded exampleAug 2).2.2
  exact ⟨hmem, h.1 (0, 1) hmem, (h.2 (0, 1) hmem).1, (h.2 (0, 1) hmem).2⟩

/-- Size fact: the Cartesian product has as many elements as the
product of the list lengths. -/
theorem cartProduct_length (ls : List (List ℚ)) :
    (cartProduct ls).length = (ls.map List.length).prod := by
  induction ls with
  | nil => rfl
  | cons l ls ih =>
      simp [cartProduct, List.length_flatMap, Function.comp_def, ih,
        List.map_const', List.sum_replicate, smul_eq_mul, Nat.mul_comm]

/-- Distinctness fact: if every candidate list is duplicate-free, so is
the Cartesian product. -/
theorem cartProduct_nodup (ls : List (List ℚ)) (h : ∀ l ∈ ls, l.Nodup) :
    (cartProduct ls).Nodup := by
  induction ls with
  | nil => simp [cartProduct]
  | cons l ls ih =>
      have hl : l.Nodup := h l (List.mem_cons_self l ls)
      have hrest : (cartProduct ls).Nodup :=
        ih (fun m hm => h m (List.mem_cons_of_mem l hm))
      refine List.nodup_flatMap.mpr ⟨?_, ?_⟩
      · intro x _
        exact hrest.map List.cons_injective
      · refine hl.imp ?_
        intro a b hab
        intro z hza hzb
        obtain ⟨ca, _, hca⟩ := List.mem_map.mp hza
        obtain ⟨cb, _, hcb⟩ := List.mem_map.mp hzb
        rw [← hca] at hcb
        exact hab ((List.cons_eq_cons.mp hcb).1.symm)

/-- C6: for every parameter grid the Grid Search Engine emits exactly
the product of the candidate-list sizes, times the number of
repetition groups when any are configured, and — provided the
candidate lists and group labels are duplicate-free, which the string
tag encoding presupposes — all emitted tags are pairwise distinct. -/
theorem c6_tag_count_distinct (paramLists : List (List ℚ))
    (repGroups : List String) (hp : ∀ l ∈ paramLists, l.Nodup)
    (hg : repGroups.Nodup) :
    (gridTags paramLists repGroups).length
      = (if repGroups.isEmpty then 1 else repGroups.length)
        * (paramLists.map List.length).prod
    ∧ (gridTags paramLists repGroups).Nodup := by
  have hcp := cartProduct_nodup paramLists hp
  have hgroups : (if repGroups.isEmpty then [""] else repGroups).Nodup := by
    by_cases hge : repGroups.isEmpty
    · simp [hge]
    · simpa [hge] using hg
  constructor
  · simp [gridTags, List.length_flatMap, Function.comp_def,
      cartProduct_length, List.map_const', List.sum_replicate, smul_eq_mul]
    by_cases hge : repGroups = [] <;> simp [hge]
  · refine List.nodup_flatMap.mpr ⟨?_, ?_⟩
    · intro grp _
      refine hcp.map ?_
      intro c d hcd
      exact congrArg Prod.snd hcd
    · refine hgroups.imp ?_
      intro a b hab
      intro z hza hzb
      obtain ⟨ca, _, hca⟩ := List.mem_map.mp hza
      obtain ⟨cb, _, hcb⟩ := List.mem_map.mp hzb
      rw [← hca] at hcb
      exact hab ((congrArg Prod.fst hcb).symm)

/-- C6 witness: a two-by-one grid with no randomization emits two
distinct tags. -/
theorem c6_tag_count_distinct_witness :
    (gridTags [[1, 2], [5]] []).length = 2
    ∧ (gridTags [[1, 2], [5]] []).Nodup := by
  have h := c6_tag_count_distinct [[1, 2], [5]] [] (by decide) (by decide)
  exact ⟨h.1.trans (by decide), h.2⟩

/-- Invariance fact: the node union is unchanged by reordering the
forests. -/
theorem nodesUnion_perm (l₁ l₂ : List SForest) (h : l₁.Perm l₂) :
    nodesUnion l₁ = nodesUnion l₂ := by
  induction h with
  | nil => rfl
  | cons f _ ih =>
      show f.nodes ∪ nodesUnion _ = f.nodes ∪ nodesUnion _
      rw [ih]
  | swap f g t =>
      exact Finset.union_left_comm _ _ _
  | trans _ _ ih₁ ih₂ => exact ih₁.trans ih₂

/-- Invariance fact: the edge union is unchanged by reordering the
forests. -/
theorem edgesUnion_perm (l₁ l₂ : List SForest) (h : l₁.Perm l₂) :
    edgesUnion l₁ = edgesUnion l₂ := by
  induction h with
  | nil => rfl
  | cons f _ ih =>
      show f.edges ∪ edgesUnion _ = f.edges ∪ edgesUnion _
      rw [ih]
  | swap f g t =>
      exact Finset.union_left_comm _ _ _
  | trans _ _ ih₁ ih₂ => exact ih₁.trans ih₂

/-- Membership fact: a node is in the union exactly when some forest
holds it. -/
theorem mem_nodesUnion (l : List SForest) (v : ℕ) :
    v ∈ nodesUnion l ↔ ∃ f ∈ l, v ∈ f.nodes := by
  induction l with
  | nil => simp [nodesUnion]
  | cons f t ih =>
      show v ∈ f.nodes ∪ nodesUnion t ↔ _
      simp [Finset.mem_union, ih]

/-- Membership fact: an edge is in the union exactly when some forest
holds it. -/
theorem mem_edgesUnion (l : List SForest) (e : ℕ × ℕ) :
    e ∈ edgesUnion l ↔ ∃ f ∈ l, e ∈ f.edges := by
  induction l with
  | nil => simp [edgesUnion]
  | cons f t ih =>
      show e ∈ f.edges ∪ edgesUnion t ↔ _
      simp [Finset.mem_union, ih]

/-- C7: merging to an augmented forest is order-independent — any
permutation of the forest list yields the same augmented forest — and
every recorded frequency is the element's occurrence count divided by
the number of forests. -/
theorem c7_merge_order_independent (l₁ l₂ : List SForest) (h : l₁.Perm l₂) :
    mergeForests l₁ = mergeForests l₂
    ∧ (∀ v q, (v, q) ∈ (mergeForests l₁).nodeFreq →
        q = (l₁.countP (fun f => v ∈ f.nodes) : ℚ) / l₁.length)
    ∧ (∀ e q, (e, q) ∈ (mergeForests l₁).edgeFreq →
        q = (l₁.countP (fun f => e ∈ f.edges) : ℚ) / l₁.length) := by
  refine ⟨?_, ?_, ?_⟩
  · have hfn : (fun v => (v, (l₁.countP (fun f => v ∈ f.nodes) : ℚ) / l₁.length))
        = (fun v => (v, (l₂.countP (fun f => v ∈ f.nodes) : ℚ) / l₂.length)) := by
      funext v
      rw [List.Perm.countP_eq _ h, List.Perm.length_eq h]
    have hfe : (fun e => (e, (l₁.countP (fun f => e ∈ f.edges) : ℚ) / l₁.length))
        = (fun e => (e, (l₂.countP (fun f => e ∈ f.edges) : ℚ) / l₂.length)) := by
      funext e
      rw [List.Perm.countP_eq _ h, List.Perm.length_eq h]
    show AugForest.mk _ _ = AugForest.mk _ _
    rw [nodesUnion_perm l₁ l₂ h, edgesUnion_perm l₁ l₂ h, hfn, hfe]
  · intro v q hm
    obtain ⟨v', _, heq⟩ := Finset.mem_image.mp hm
    have h1 : v' = v := congrArg Prod.fst heq
    have h2 := congrArg Prod.snd heq
    rw [h1] at h2
    exact h2.symm
  · intro e q hm
    obtain ⟨e', _, heq⟩ := Finset.mem_image.mp hm
    have h1 : e' = e := congrArg Prod.fst heq
    have h2 := congrArg Prod.snd heq
    rw [h1] at h2
    exact h2.symm

/-- C7 witness: merging the two concrete forests in either order gives
the same augmented forest. -/
theorem c7_merge_order_independent_witness :
    mergeForests [forestA, forestB] = mergeForests [forestB, forestA] :=
  (c7_merge_order_independent [forestA, forestB] [forestB, forestA]
    (by decide)).1

/-- Arithmetic fact: an occurrence ratio lies in the unit interval. -/
theorem count_ratio_bounds (c N : ℕ) (hc : c ≤ N) :
    0 ≤ (c : ℚ) / N ∧ (c : ℚ) / N ≤ 1 := by
  constructor
  · exact div_nonneg (Nat.cast_nonneg c) (Nat.cast_nonneg N)
  · rcases Nat.eq_zero_or_pos N with hN | hN
    · simp [hN]
    · exact div_le_one_of_le₀ (by exact_mod_cast hc) (Nat.cast_nonneg N)

/-- Arithmetic fact: an occurrence ratio equals one only when the count
reaches the denominator. -/
theorem count_ratio_eq_one (c N : ℕ) (hN : 0 < N) (h : (c : ℚ) / N = 1) :
    c = N := by
  have hN' : (N : ℚ) ≠ 0 := by exact_mod_cast hN.ne'
  have : (c : ℚ) = N := by
    field_simp at h
    exact_mod_cast h
  exact_mod_cast this

/-- C8: every node and edge frequency of a merged augmented forest lies
in [0, 1]; a frequency of 1 forces the element to appear in every
repetition; and an element — node or edge — included in at least as
many repetitions as another never has the smaller frequency. -/
theorem c8_frequency_invariants (forests : List SForest) :
    (∀ v q, (v, q) ∈ (mergeForests forests).nodeFreq →
      0 ≤ q ∧ q ≤ 1 ∧ (q = 1 → ∀ f ∈ forests, v ∈ f.nodes))
    ∧ (∀ e q, (e, q) ∈ (mergeForests forests).edgeFreq →
      0 ≤ q ∧ q ≤ 1 ∧ (q = 1 → ∀ f ∈ forests, e ∈ f.edges))
    ∧ (∀ v w qv qw, (v, qv) ∈ (mergeForests forests).nodeFreq →
        (w, qw) ∈ (mergeForests forests).nodeFreq →
        forests.countP (fun f => v ∈ f.nodes)
          ≤ forests.countP (fun f => w ∈ f.nodes) →
        qv ≤ qw)
    ∧ (∀ d e qd qe, (d, qd) ∈ (mergeForests forests).edgeFreq →
        (e, qe) ∈ (mergeForests forests).edgeFreq →
        forests.countP (fun f => d ∈ f.edges)
          ≤ forests.countP (fun f => e ∈ f.edges) →
        qd ≤ qe) := by
  have hval : ∀ v q, (v, q) ∈ (mergeForests forests).nodeFreq →
      v ∈ nodesUnion forests
      ∧ q = (forests.countP (fun f => v ∈ f.nodes) : ℚ) / forests.length := by
    intro v q hm
    obtain ⟨v', hv', heq⟩ := Finset.mem_image.mp hm
    have h1 : v' = v := congrArg Prod.fst heq
    have h2 := congrArg Prod.snd heq
    rw [h1] at h2 hv'
    exact ⟨hv', h2.symm⟩
  have hvale : ∀ e q, (e, q) ∈ (mergeForests forests).edgeFreq →
      e ∈ edgesUnion forests
      ∧ q = (forests.countP (fun f => e ∈ f.edges) : ℚ) / forests.length := by
    intro e q hm
    obtain ⟨e', he', heq⟩ := Finset.mem_image.mp hm
    have h1 : e' = e := congrArg Prod.fst heq
    have h2 := congrArg Prod.snd heq
    rw [h1] at h2 he'
    exact ⟨he', h2.symm⟩
  refine ⟨?_, ?_, ?_, ?_⟩
  · intro v q hm
    obtain ⟨hv, rfl⟩ := hval v q hm
    obtain ⟨f0, hf0, _⟩ := (mem_nodesUnion forests v).mp hv
    have hpos : 0 < forests.length := List.length_pos.mpr (by rintro rfl; cases hf0)
    obtain ⟨h0, h1⟩ := count_ratio_bounds _ _ (List.countP_le_length _)
    refine ⟨h0, h1, ?_⟩
    intro hone f hf
    have hcnt := count_ratio_eq_one _ _ hpos hone
    have := List.countP_eq_length.mp hcnt f hf
    exact of_decide_eq_true this
  · intro e q hm
    obtain ⟨he, rfl⟩ := hvale e q hm
    obtain ⟨f0, hf0, _⟩ := (mem_edgesUnion forests e).mp he
    have hpos : 0 < forests.length := List.length_pos.mpr (by rintro rfl; cases hf0)
    obtain ⟨h0, h1⟩ := count_ratio_bounds _ _ (List.countP_le_length _)
    refine ⟨h0, h1, ?_⟩
    intro hone f hf
    have hcnt := count_ratio_eq_one _ _ hpos hone
    have := List.countP_eq_length.mp hcnt f hf
    exact of_decide_eq_true this
  · intro v w qv qw hmv hmw hcle
    obtain ⟨_, rfl⟩ := hval v qv hmv
    obtain ⟨_, rfl⟩ := hval w qw hmw
    exact div_le_div_of_nonneg_right (by exact_mod_cast hcle)
      (Nat.cast_nonneg forests.length) |>.trans_eq rfl
  · intro d e qd qe hmd hme hcle
    obtain ⟨_, rfl⟩ := hvale d qd hmd
    obtain ⟨_, rfl⟩ := hvale e qe hme
    exact div_le_div_of_nonneg_right (by exact_mod_cast hcle)
      (Nat.cast_nonneg forests.length) |>.trans_eq rfl

/-- C8 witness: in the merge of the two concrete forests, node 0
appears in both (frequency 1, within bounds) and node 1 in one of the
two, and their frequencies respect the inclusion counts. -/
theorem c8_frequency_invariants_witness :
    (0, (1 : ℚ)) ∈ (mergeForests [forestA, forestB]).nodeFreq
    ∧ (0 : ℚ) ≤ 1 ∧ (1 : ℚ) ≤ 1
    ∧ ((1 : ℚ) = 1 → ∀ f ∈ [forestA, forestB], 0 ∈ f.nodes) := by
  have hmem : (0, (1 : ℚ)) ∈ (mergeForests [forestA, forestB]).nodeFreq := by
    have h0 : (0 : ℕ) ∈ nodesUnion [forestA, forestB] := by
      rw [mem_nodesUnion]
      exact ⟨forestA, by simp, by decide⟩
    refine Finset.mem_image.mpr ⟨0, h0, ?_⟩
    have hc : ([forestA, forestB].countP (fun f => 0 ∈ f.nodes)) = 2 := by decide
    rw [hc]
    norm_num
  have h := (c8_frequency_invariants [forestA, forestB]).1 0 1 hmem
  exact ⟨hmem, h.1, h.2.1, h.2.2⟩

/-- C9: the random-terminals perturbation leaves the interactome (graph
structure and edge costs) unchanged and returns a prize assignment with
exactly as many prized nodes as the original: same list length, and
the prized-node keys stay pairwise distinct because the replacement
draw picks distinct substitute nodes. -/
theorem c9_random_terminals_preserve (g : Interactome)
    (prizes : PrizeAssignment) (σ : ℕ → ℕ) (hσ : Function.Injective σ)
    (hk : (prizes.map Prod.fst).Nodup) :
    (randomTerminals g prizes σ).1 = g
    ∧ (randomTerminals g prizes σ).2.length = prizes.length
    ∧ ((randomTerminals g prizes σ).2.map Prod.fst).Nodup := by
  refine ⟨rfl, by simp [randomTerminals], ?_⟩
  show ((prizes.map (fun p => (σ p.1, p.2))).map Prod.fst).Nodup
  rw [List.map_map]
  have hfun : (Prod.fst ∘ fun p : ℕ × ℚ => (σ p.1, p.2)) = σ ∘ Prod.fst := rfl
  rw [hfun, ← List.map_map]
  exact hk.map hσ

/-- C9 witness: perturbing the concrete two-node prize assignment with
the successor replacement map keeps the interactome intact and yields
two distinctly keyed prizes. -/
theorem c9_random_terminals_preserve_witness :
    (randomTerminals exampleInteractome examplePrizes Nat.succ).1
      = exampleInteractome
    ∧ (randomTerminals exampleInteractome examplePrizes Nat.succ).2.length = 2
    ∧ ((randomTerminals exampleInteractome examplePrizes Nat.succ).2.map
        Prod.fst).Nodup := by
  have h := c9_random_terminals_preserve exampleInteractome examplePrizes
    Nat.succ (fun a b hab => Nat.succ_injective hab) (by decide)
  exact ⟨h.1, h.2.1.trans (by decide), h.2.2⟩

end OI2
